import Mathlib

/- Verification of the minesweeper game logic: board generation with a
   rejection-sampling mine placement loop, Moore-neighbourhood mine counting,
   the recursive zero-count reveal cascade, flag toggling, the cursor-to-tile
   coordinate mapping, and the Playing/GameOver controller step. -/

/-- A tile coordinate: a logical position on the board (column, row). -/
abbrev Coord : Type := ℤ × ℤ

/-- Board dimensions constant of the program. -/
def BOARD_DIM : Coord := (20, 15)

/-- Requested number of mines of the program. -/
def MINE_NUM : ℤ := 40

/-- Size of one tile in world units. -/
def TILE_SIZE : ℚ := 32

/-- Bounds check for a coordinate, as in the source: x and y nonnegative and
strictly below the board dimensions. -/
def in_bounds (dims : Coord) (c : Coord) : Bool :=
  decide (0 ≤ c.1) && decide (0 ≤ c.2) && decide (c.1 < dims.1) && decide (c.2 < dims.2)

/-- Current state of the board: mine positions, flagged cells, revealed cells,
and the neighbour-count map (a partial map, present for in-bounds non-mine
cells of a generated board). -/
structure BoardState where
  mines : Finset Coord
  flags : Finset Coord
  revealed : Finset Coord
  nums : Coord → Option ℤ

/-- The 3 by 3 block of offsets scanned by the source, in cartesian-product
order, including the zero offset. -/
def offs : List Coord :=
  ([-1, 0, 1] : List ℤ).flatMap fun x => ([-1, 0, 1] : List ℤ).map fun y => ((x, y) : Coord)

/-- Neighbour list of a cell as built in the reveal cascade: all nine offsets,
drop the zero offset, shift by the cell, keep the in-bounds ones. -/
def neighbours (dims : Coord) (pos : Coord) : List Coord :=
  ((offs.filter fun o => decide (o ≠ (0, 0))).map fun o =>
    ((o.1 + pos.1, o.2 + pos.2) : Coord)).filter fun q => in_bounds dims q

/-- Neighbour-count value computed by the generator for a cell: shift every
offset of the 3 by 3 block, keep the in-bounds ones, sum mine-membership
indicators. -/
def neighbourCount (dims : Coord) (mines : Finset Coord) (p : Coord) : ℤ :=
  (((offs.map fun o => ((o.1 + p.1, o.2 + p.2) : Coord)).filter
      fun q => in_bounds dims q).map fun q => if q ∈ mines then (1 : ℤ) else 0).sum

/-- The neighbour-count map built by the generator: defined exactly on
in-bounds cells that are not mines. -/
def compute_nums (dims : Coord) (mines : Finset Coord) : Coord → Option ℤ :=
  fun p =>
    if in_bounds dims p = true ∧ p ∉ mines then some (neighbourCount dims mines p)
    else none

/-- The mine-placement loop: consume random samples, insert a sample when it
is new and decrement the remaining quota, until the quota reaches zero.
The sample list stands for the random number generator; none models a run
that exhausted the given samples before meeting the quota. -/
def placeMines : List Coord → ℕ → Finset Coord → Option (Finset Coord)
  | _, 0, mines => some mines
  | [], _ + 1, _ => none
  | c :: rest, n + 1, mines =>
    if c ∈ mines then placeMines rest (n + 1) mines
    else placeMines rest n (insert c mines)

/-- Board generation: clamp the requested mine count to the number of tiles,
run the placement loop, then build the neighbour-count map; flags and
revealed start empty. -/
def generate_board (dims : Coord) (mineNum : ℤ) (samples : List Coord) :
    Option BoardState :=
  (placeMines samples (min mineNum (dims.1 * dims.2)).toNat ∅).map fun mines =>
    { mines := mines, flags := ∅, revealed := ∅, nums := compute_nums dims mines }

/-- Sequential reveal of a list of neighbours, OR-ing the hazard results,
parameterised by the reveal function used on each element. -/
def revealList (g : BoardState → Coord → Option (BoardState × Bool)) :
    BoardState → Bool → List Coord → Option (BoardState × Bool)
  | b, res, [] => some (b, res)
  | b, res, n :: ns =>
    match g b n with
    | none => none
    | some p => revealList g p.1 (res || p.2) ns

/-- Fuelled reveal recursion, a direct translation of the source: a flagged
or already-revealed cell is left alone; otherwise the cell is inserted into
the revealed set; a mine reports true; a zero-count cell cascades into its
in-bounds Moore neighbours. -/
def revealGo (dims : Coord) : ℕ → BoardState → Coord → Option (BoardState × Bool)
  | 0, _, _ => none
  | f + 1, b, pos =>
    if pos ∈ b.flags then some (b, false)
    else if pos ∈ b.revealed then some (b, false)
    else
      let b1 : BoardState := { b with revealed := insert pos b.revealed }
      if pos ∈ b1.mines then some (b1, true)
      else if b1.nums pos = some 0 then
        revealList (revealGo dims f) b1 false (neighbours dims pos)
      else some (b1, false)

/-- The finite set of in-bounds cells of the board. -/
def boardCells (dims : Coord) : Finset Coord :=
  Finset.Icc (0 : ℤ) (dims.1 - 1) ×ˢ Finset.Icc (0 : ℤ) (dims.2 - 1)

/-- Fuel that always suffices for the reveal recursion: the number of
unrevealed in-bounds cells plus two. -/
def revealFuel (dims : Coord) (b : BoardState) : ℕ :=
  (boardCells dims \ b.revealed).card + 2

/-- The reveal operation: run the fuelled recursion with sufficient fuel.
The default branch is never taken (see the termination theorem). -/
def reveal_board (dims : Coord) (b : BoardState) (pos : Coord) : BoardState × Bool :=
  (revealGo dims (revealFuel dims b) b pos).getD (b, false)

/-- Truncation toward zero, the conversion a float-to-integer cast performs. -/
def truncQ (q : ℚ) : ℤ := if q < 0 then ⌈q⌉ else ⌊q⌋

/-- Translation of the cursor-to-tile mapping: subtract the left or bottom
half-extent of the centred grid, divide by the tile size, truncate toward
zero, and return the cell only when both components pass the bounds guard.
Continuous positions are modelled as rationals; the float arithmetic of the
source is exact on the dyadic values relevant here. -/
def pos_to_tile_coords (dims : Coord) (pos : ℚ × ℚ) : Option Coord :=
  let cx : ℤ := truncQ ((pos.1 - (-(1 / 2 : ℚ) * (dims.1 : ℚ) * TILE_SIZE)) / TILE_SIZE)
  let cy : ℤ := truncQ ((pos.2 - (-(1 / 2 : ℚ) * (dims.2 : ℚ) * TILE_SIZE)) / TILE_SIZE)
  if 0 ≤ cx ∧ 0 ≤ cy ∧ cx < dims.1 ∧ cy < dims.2 then some (cx, cy) else none

/-- Left edge of the on-screen grid region in world coordinates. -/
def gridLeft (dims : Coord) : ℚ := -(1 / 2 : ℚ) * (dims.1 : ℚ) * TILE_SIZE

/-- Bottom edge of the on-screen grid region in world coordinates. -/
def gridBottom (dims : Coord) : ℚ := -(1 / 2 : ℚ) * (dims.2 : ℚ) * TILE_SIZE

/-- A position lies inside the on-screen grid region. -/
def insideGrid (dims : Coord) (pos : ℚ × ℚ) : Prop :=
  gridLeft dims ≤ pos.1 ∧ pos.1 < gridLeft dims + (dims.1 : ℚ) * TILE_SIZE ∧
    gridBottom dims ≤ pos.2 ∧ pos.2 < gridBottom dims + (dims.2 : ℚ) * TILE_SIZE

instance (dims : Coord) (pos : ℚ × ℚ) : Decidable (insideGrid dims pos) := by
  unfold insideGrid
  infer_instance

/-- The game state machine. -/
inductive GameState where
  | Playing : GameState
  | GameOver : GameState
deriving DecidableEq

/-- A player action already resolved to a board cell: a left click (reveal)
or a right click (flag toggle). -/
inductive PlayerAction where
  | revealAt : Coord → PlayerAction
  | flagAt : Coord → PlayerAction
deriving DecidableEq

/-- The action handler: a reveal on an unrevealed cell runs the reveal
operation and moves to GameOver when it reports a mine; a right click on an
unrevealed cell toggles its flag. Clicks on revealed cells do nothing. -/
def detect_presses (dims : Coord) (b : BoardState) (a : PlayerAction) :
    GameState × BoardState :=
  match a with
  | PlayerAction.revealAt pos =>
    if pos ∈ b.revealed then (GameState.Playing, b)
    else
      let r := reveal_board dims b pos
      (if r.2 then GameState.GameOver else GameState.Playing, r.1)
  | PlayerAction.flagAt pos =>
    if pos ∈ b.revealed then (GameState.Playing, b)
    else
      (GameState.Playing,
        { b with flags := if pos ∈ b.flags then b.flags.erase pos else insert pos b.flags })

/-- One frame of the controller: the action handler is scheduled only while
the state machine is in Playing, so in GameOver nothing runs. -/
def controller_step (dims : Coord) (s : GameState × BoardState) (a : PlayerAction) :
    GameState × BoardState :=
  match s.1 with
  | GameState.GameOver => s
  | GameState.Playing => detect_presses dims s.2 a

/-- The Moore neighbourhood of a cell clipped to board bounds: the 3 by 3
box around the cell, without the cell itself, intersected with the board. -/
def mooreNeighbors (dims : Coord) (c : Coord) : Finset Coord :=
  ((Finset.Icc (c.1 - 1) (c.1 + 1) ×ˢ Finset.Icc (c.2 - 1) (c.2 + 1)).erase c).filter
    fun q => in_bounds dims q = true

/-- Number of mines in the clipped Moore neighbourhood of a cell. -/
def mooreMineCount (dims : Coord) (mines : Finset Coord) (c : Coord) : ℕ :=
  ((mooreNeighbors dims c).filter fun q => q ∈ mines).card

/-- The reveal operation leaves mines, flags and the count map unchanged and
only grows the revealed set. -/
def FramePreserved (b b2 : BoardState) : Prop :=
  b2.mines = b.mines ∧ b2.flags = b.flags ∧ b2.nums = b.nums ∧ b.revealed ⊆ b2.revealed

/-- Board used in concrete check runs of the controller: two by two, one mine. -/
def bW6 : BoardState :=
  { mines := {((0 : ℤ), (1 : ℤ))}, flags := ∅, revealed := ∅,
    nums := compute_nums (2, 2) {((0 : ℤ), (1 : ℤ))} }

/-- Board used in the GameOver witness: one cell which is a mine. -/
def bW7 : BoardState :=
  { mines := {((0 : ℤ), (0 : ℤ))}, flags := ∅, revealed := ∅,
    nums := compute_nums (1, 1) {((0 : ℤ), (0 : ℤ))} }

/-- The nine samples used in the clamped-generation witness run. -/
def samplesW3 : List Coord :=
  [(0, 0), (1, 0), (2, 0), (0, 1), (1, 1), (2, 1), (0, 2), (1, 2), (2, 2)]

/-- The board the generator produces on a 3 by 3 grid with a request of 100
mines and the witness samples. -/
def bdW3 : BoardState :=
  (generate_board (3, 3) 100 samplesW3).getD
    { mines := ∅, flags := ∅, revealed := ∅, nums := fun _ => none }

/-- The 4 by 4 board of the cascade scenario: one mine in the far corner,
nothing flagged or revealed, counts as the generator computes them. -/
def boardC2 : BoardState :=
  { mines := {((3 : ℤ), (3 : ℤ))}, flags := ∅, revealed := ∅,
    nums := compute_nums (4, 4) {((3 : ℤ), (3 : ℤ))} }

/-- The board generated in the count-map witness run: 2 by 2, one mine. -/
def bdW4 : BoardState :=
  (generate_board (2, 2) 1 [(0, 1)]).getD
    { mines := ∅, flags := ∅, revealed := ∅, nums := fun _ => none }

lemma revealGo_succ (dims : Coord) (f : ℕ) (b : BoardState) (pos : Coord) :
    revealGo dims (f + 1) b pos =
      if pos ∈ b.flags then some (b, false)
      else if pos ∈ b.revealed then some (b, false)
      else if pos ∈ b.mines then some ({ b with revealed := insert pos b.revealed }, true)
      else if b.nums pos = some 0 then
        revealList (revealGo dims f) { b with revealed := insert pos b.revealed }
          false (neighbours dims pos)
      else some ({ b with revealed := insert pos b.revealed }, false) := rfl

lemma in_bounds_iff {dims c : Coord} :
    in_bounds dims c = true ↔ 0 ≤ c.1 ∧ 0 ≤ c.2 ∧ c.1 < dims.1 ∧ c.2 < dims.2 := by
  simp [in_bounds, and_assoc]

lemma mem_boardCells {dims c : Coord} :
    c ∈ boardCells dims ↔ in_bounds dims c = true := by
  simp [boardCells, in_bounds_iff, Finset.mem_Icc]
  omega

lemma neighbours_in_bounds {dims pos n : Coord} (h : n ∈ neighbours dims pos) :
    in_bounds dims n = true := by
  simp only [neighbours, List.mem_filter] at h
  exact h.2

lemma frame_refl (b : BoardState) : FramePreserved b b :=
  ⟨rfl, rfl, rfl, Finset.Subset.refl _⟩

lemma frame_trans {a b c : BoardState} (h1 : FramePreserved a b)
    (h2 : FramePreserved b c) : FramePreserved a c :=
  ⟨h2.1.trans h1.1, h2.2.1.trans h1.2.1, h2.2.2.1.trans h1.2.2.1,
    h1.2.2.2.trans h2.2.2.2⟩

lemma frame_card_le (dims : Coord) {b b2 : BoardState} (h : FramePreserved b b2) :
    (boardCells dims \ b2.revealed).card ≤ (boardCells dims \ b.revealed).card :=
  Finset.card_le_card (Finset.sdiff_subset_sdiff (Finset.Subset.refl _) h.2.2.2)

lemma revealList_frame {g : BoardState → Coord → Option (BoardState × Bool)}
    (hg : ∀ b n out, g b n = some out → FramePreserved b out.1) :
    ∀ (l : List Coord) (b : BoardState) (res : Bool) (out : BoardState × Bool),
      revealList g b res l = some out → FramePreserved b out.1 := by
  intro l
  induction l with
  | nil =>
    intro b res out h
    simp only [revealList, Option.some.injEq] at h
    rw [← h]
    exact frame_refl b
  | cons n ns ih =>
    intro b res out h
    simp only [revealList] at h
    cases hg1 : g b n with
    | none => rw [hg1] at h; exact absurd h (by simp)
    | some p =>
      rw [hg1] at h
      exact frame_trans (hg _ _ _ hg1) (ih _ _ _ h)

lemma revealGo_frame (dims : Coord) :
    ∀ (f : ℕ) (b : BoardState) (pos : Coord) (out : BoardState × Bool),
      revealGo dims f b pos = some out → FramePreserved b out.1 := by
  intro f
  induction f with
  | zero => intro b pos out h; simp [revealGo] at h
  | succ f ih =>
    intro b pos out h
    simp only [revealGo] at h
    by_cases h1 : pos ∈ b.flags
    · simp only [h1, if_true] at h
      rw [← Option.some.injEq] at h
      cases h
      exact frame_refl b
    by_cases h2 : pos ∈ b.revealed
    · simp only [h1, h2, if_false, if_true] at h
      cases h
      exact frame_refl b
    simp only [h1, h2, if_false] at h
    have hb1 : FramePreserved b { b with revealed := insert pos b.revealed } :=
      ⟨rfl, rfl, rfl, Finset.subset_insert _ _⟩
    by_cases h3 : pos ∈ b.mines
    · simp only [h3, if_true] at h
      cases h
      exact hb1
    simp only [h3, if_false] at h
    by_cases h4 : b.nums pos = some 0
    · simp only [h4, if_true] at h
      exact frame_trans hb1 (revealList_frame ih _ _ _ _ h)
    · simp only [h4, if_false] at h
      cases h
      exact hb1

/-- Frame property of the total reveal operation. -/
lemma reveal_board_frame (dims : Coord) (b : BoardState) (pos : Coord) :
    FramePreserved b (reveal_board dims b pos).1 := by
  unfold reveal_board
  cases h : revealGo dims (revealFuel dims b) b pos with
  | none => exact frame_refl b
  | some out => exact revealGo_frame dims _ _ _ _ h

lemma revealList_isSome (dims : Coord) {g : BoardState → Coord → Option (BoardState × Bool)}
    (hgframe : ∀ b n out, g b n = some out → FramePreserved b out.1) (m : ℕ)
    (hg : ∀ b n, in_bounds dims n = true →
      (boardCells dims \ b.revealed).card ≤ m → g b n ≠ none) :
    ∀ (l : List Coord) (b : BoardState) (res : Bool),
      (∀ n ∈ l, in_bounds dims n = true) →
      (boardCells dims \ b.revealed).card ≤ m →
      revealList g b res l ≠ none := by
  intro l
  induction l with
  | nil => intro b res _ _; simp [revealList]
  | cons n ns ih =>
    intro b res hl hcard
    simp only [revealList]
    cases hg1 : g b n with
    | none => exact absurd hg1 (hg b n (hl n (by simp)) hcard)
    | some p =>
      have hf := hgframe _ _ _ hg1
      have hc2 : (boardCells dims \ p.1.revealed).card ≤ m :=
        le_trans (frame_card_le dims hf) hcard
      exact ih p.1 (res || p.2) (fun q hq => hl q (by simp [hq])) hc2

lemma revealGo_isSome (dims : Coord) :
    ∀ m f : ℕ, m + 1 ≤ f → ∀ (b : BoardState) (pos : Coord),
      in_bounds dims pos = true → (boardCells dims \ b.revealed).card ≤ m →
      revealGo dims f b pos ≠ none := by
  intro m
  induction m with
  | zero =>
    intro f hf b pos hin hcard
    obtain ⟨f2, rfl⟩ : ∃ f2, f = f2 + 1 := ⟨f - 1, by omega⟩
    simp only [revealGo]
    by_cases h1 : pos ∈ b.flags
    · simp [h1]
    by_cases h2 : pos ∈ b.revealed
    · simp [h1, h2]
    exfalso
    have hmem : pos ∈ boardCells dims \ b.revealed :=
      Finset.mem_sdiff.2 ⟨mem_boardCells.2 hin, h2⟩
    have hpos := Finset.card_pos.2 ⟨pos, hmem⟩
    omega
  | succ m ih =>
    intro f hf b pos hin hcard
    obtain ⟨f2, rfl⟩ : ∃ f2, f = f2 + 1 := ⟨f - 1, by omega⟩
    simp only [revealGo]
    by_cases h1 : pos ∈ b.flags
    · simp [h1]
    by_cases h2 : pos ∈ b.revealed
    · simp [h1, h2]
    simp only [h1, h2, if_false]
    by_cases h3 : pos ∈ b.mines
    · simp [h3]
    by_cases h4 : b.nums pos = some 0
    · simp only [h3, h4, if_false, if_true]
      have hmem : pos ∈ boardCells dims \ b.revealed :=
        Finset.mem_sdiff.2 ⟨mem_boardCells.2 hin, h2⟩
      have hcard2 :
          (boardCells dims \ insert pos b.revealed).card ≤ m := by
        rw [Finset.sdiff_insert, Finset.card_erase_of_mem hmem]
        omega
      exact revealList_isSome dims (revealGo_frame dims f2) m
        (fun b2 n hn hc => ih f2 (by omega) b2 n hn hc)
        (neighbours dims pos) _ false
        (fun n hn => neighbours_in_bounds hn) hcard2
    · simp [h3, h4]

lemma revealGo_fuel_isSome (dims : Coord) (b : BoardState) (pos : Coord) :
    revealGo dims (revealFuel dims b) b pos ≠ none := by
  by_cases hin : in_bounds dims pos = true
  · exact revealGo_isSome dims (boardCells dims \ b.revealed).card
      (revealFuel dims b) (by simp [revealFuel]) b pos hin (le_refl _)
  · have hF : revealFuel dims b = ((boardCells dims \ b.revealed).card + 1) + 1 := rfl
    rw [hF]
    simp only [revealGo]
    by_cases h1 : pos ∈ b.flags
    · simp [h1]
    by_cases h2 : pos ∈ b.revealed
    · simp [h1, h2]
    simp only [h1, h2, if_false]
    by_cases h3 : pos ∈ b.mines
    · simp [h3]
    by_cases h4 : b.nums pos = some 0
    · simp only [h3, h4, if_false, if_true]
      have hnot : pos ∉ boardCells dims \ b.revealed := by
        intro hc
        exact hin (mem_boardCells.1 (Finset.mem_sdiff.1 hc).1)
      have hcard2 : (boardCells dims \ insert pos b.revealed).card ≤
          (boardCells dims \ b.revealed).card := by
        rw [Finset.sdiff_insert, Finset.erase_eq_of_not_mem hnot]
      exact revealList_isSome dims
        (revealGo_frame dims ((boardCells dims \ b.revealed).card + 1))
        (boardCells dims \ b.revealed).card
        (fun b2 n hn hc =>
          revealGo_isSome dims (boardCells dims \ b.revealed).card _ (le_refl _) b2 n hn hc)
        (neighbours dims pos) _ false
        (fun n hn => neighbours_in_bounds hn) hcard2
    · simp [h3, h4]

/-- C8: the reveal recursion terminates on every input: with fuel equal to the
number of unrevealed in-bounds cells plus two, the fuelled recursion completes
(returns a result rather than running out of fuel), and the reveal operation
is that result. -/
theorem reveal_board_terminates (dims : Coord) (b : BoardState) (pos : Coord) :
    revealGo dims (revealFuel dims b) b pos = some (reveal_board dims b pos) := by
  cases h : revealGo dims (revealFuel dims b) b pos with
  | none => exact absurd h (revealGo_fuel_isSome dims b pos)
  | some out => simp [reveal_board, h]

/-- C10: the reveal operation mutates only the revealed field: mines, flags
and the count map are identical before and after, and the revealed set only
grows. -/
theorem reveal_board_frame_effect (dims : Coord) (b : BoardState) (pos : Coord) :
    (reveal_board dims b pos).1.mines = b.mines ∧
    (reveal_board dims b pos).1.flags = b.flags ∧
    (reveal_board dims b pos).1.nums = b.nums ∧
    b.revealed ⊆ (reveal_board dims b pos).1.revealed :=
  reveal_board_frame dims b pos

lemma revealList_unflagged {g : BoardState → Coord → Option (BoardState × Bool)}
    (hgframe : ∀ b n out, g b n = some out → FramePreserved b out.1)
    (hg : ∀ b n out, g b n = some out →
      ∀ c ∈ out.1.revealed, c ∈ b.revealed ∨ c ∉ b.flags) :
    ∀ (l : List Coord) (b : BoardState) (res : Bool) (out : BoardState × Bool),
      revealList g b res l = some out →
      ∀ c ∈ out.1.revealed, c ∈ b.revealed ∨ c ∉ b.flags := by
  intro l
  induction l with
  | nil =>
    intro b res out h c hc
    simp only [revealList, Option.some.injEq] at h
    rw [← h] at hc
    exact Or.inl hc
  | cons n ns ih =>
    intro b res out h c hc
    simp only [revealList] at h
    cases hg1 : g b n with
    | none => rw [hg1] at h; exact absurd h (by simp)
    | some p =>
      rw [hg1] at h
      rcases ih _ _ _ h c hc with h2 | h2
      · exact hg _ _ _ hg1 c h2
      · rw [(hgframe _ _ _ hg1).2.1] at h2
        exact Or.inr h2

lemma revealGo_unflagged (dims : Coord) :
    ∀ (f : ℕ) (b : BoardState) (pos : Coord) (out : BoardState × Bool),
      revealGo dims f b pos = some out →
      ∀ c ∈ out.1.revealed, c ∈ b.revealed ∨ c ∉ b.flags := by
  intro f
  induction f with
  | zero => intro b pos out h; simp [revealGo] at h
  | succ f ih =>
    intro b pos out h c hc
    simp only [revealGo] at h
    by_cases h1 : pos ∈ b.flags
    · simp only [h1, if_true] at h
      cases h; exact Or.inl hc
    by_cases h2 : pos ∈ b.revealed
    · simp only [h1, h2, if_false, if_true] at h
      cases h; exact Or.inl hc
    simp only [h1, h2, if_false] at h
    by_cases h3 : pos ∈ b.mines
    · simp only [h3, if_true] at h
      cases h
      simp only [Finset.mem_insert] at hc
      rcases hc with rfl | hc
      · exact Or.inr h1
      · exact Or.inl hc
    simp only [h3, if_false] at h
    by_cases h4 : b.nums pos = some 0
    · simp only [h4, if_true] at h
      rcases revealList_unflagged (revealGo_frame dims f) ih _ _ _ _ h c hc with h5 | h5
      · simp only [Finset.mem_insert] at h5
        rcases h5 with rfl | h5
        · exact Or.inr h1
        · exact Or.inl h5
      · exact Or.inr h5
    · simp only [h4, if_false] at h
      cases h
      simp only [Finset.mem_insert] at hc
      rcases hc with rfl | hc
      · exact Or.inr h1
      · exact Or.inl hc

lemma reveal_board_unflagged (dims : Coord) (b : BoardState) (pos : Coord) :
    ∀ c ∈ (reveal_board dims b pos).1.revealed, c ∈ b.revealed ∨ c ∉ b.flags := by
  unfold reveal_board
  cases h : revealGo dims (revealFuel dims b) b pos with
  | none => intro c hc; exact Or.inl hc
  | some out => exact revealGo_unflagged dims _ _ _ _ h

lemma controller_step_disjoint (dims : Coord) (s : GameState × BoardState)
    (a : PlayerAction) (h : Disjoint s.2.flags s.2.revealed) :
    Disjoint (controller_step dims s a).2.flags (controller_step dims s a).2.revealed := by
  obtain ⟨st, b⟩ := s
  cases st with
  | GameOver => exact h
  | Playing =>
    cases a with
    | revealAt pos =>
      simp only [controller_step, detect_presses]
      by_cases h1 : pos ∈ b.revealed
      · simpa [h1] using h
      · simp only [h1, if_false]
        rw [Finset.disjoint_left]
        intro c hcf hcr
        rw [(reveal_board_frame dims b pos).2.1] at hcf
        rcases reveal_board_unflagged dims b pos c hcr with h2 | h2
        · exact Finset.disjoint_left.1 h hcf h2
        · exact h2 hcf
    | flagAt pos =>
      simp only [controller_step, detect_presses]
      by_cases h1 : pos ∈ b.revealed
      · simpa [h1] using h
      · simp only [h1, if_false]
        by_cases h2 : pos ∈ b.flags
        · simp only [h2, if_true]
          rw [Finset.disjoint_left] at h ⊢
          intro c hcf hcr
          exact h (Finset.mem_of_mem_erase hcf) hcr
        · simp only [h2, if_false]
          rw [Finset.disjoint_left] at h ⊢
          intro c hcf hcr
          rcases Finset.mem_insert.1 hcf with rfl | hcf
          · exact h1 hcr
          · exact h hcf hcr

/-- C6: starting from a board with empty flag and revealed sets, every
sequence of dispatched reveal and flag-toggle actions keeps the flag set and
the revealed set disjoint. -/
theorem flags_revealed_disjoint (dims : Coord) (b0 : BoardState)
    (h1 : b0.flags = ∅) (h2 : b0.revealed = ∅) (acts : List PlayerAction) :
    (List.foldl (controller_step dims) (GameState.Playing, b0) acts).2.flags ∩
      (List.foldl (controller_step dims) (GameState.Playing, b0) acts).2.revealed = ∅ := by
  have key : ∀ (acts : List PlayerAction) (s : GameState × BoardState),
      Disjoint s.2.flags s.2.revealed →
      Disjoint (List.foldl (controller_step dims) s acts).2.flags
        (List.foldl (controller_step dims) s acts).2.revealed := by
    intro acts
    induction acts with
    | nil => intro s hs; exact hs
    | cons a rest ih =>
      intro s hs
      rw [List.foldl_cons]
      exact ih _ (controller_step_disjoint dims s a hs)
  exact Finset.disjoint_iff_inter_eq_empty.1
    (key acts (GameState.Playing, b0) (by simp [h1]))

theorem flags_revealed_disjoint_witness :
    (List.foldl (controller_step (2, 2)) (GameState.Playing, bW6)
        [PlayerAction.flagAt (0, 0), PlayerAction.revealAt (1, 1)]).2.flags ∩
      (List.foldl (controller_step (2, 2)) (GameState.Playing, bW6)
        [PlayerAction.flagAt (0, 0), PlayerAction.revealAt (1, 1)]).2.revealed = ∅ :=
  flags_revealed_disjoint (2, 2) bW6 rfl rfl _

lemma foldl_gameover (dims : Coord) (x : BoardState) :
    ∀ acts : List PlayerAction,
      List.foldl (controller_step dims) (GameState.GameOver, x) acts =
        (GameState.GameOver, x) := by
  intro acts
  induction acts with
  | nil => rfl
  | cons a rest ih => rw [List.foldl_cons]; exact ih

/-- C7: a reveal that exposes a mine moves the controller to GameOver, and
from then on every later player action is a no-op on the whole state. -/
theorem gameover_actions_noop (dims : Coord) (b : BoardState) (pos : Coord)
    (acts : List PlayerAction) (h1 : pos ∉ b.revealed)
    (h2 : (reveal_board dims b pos).2 = true) :
    (controller_step dims (GameState.Playing, b) (PlayerAction.revealAt pos)).1 =
      GameState.GameOver ∧
    List.foldl (controller_step dims)
        (controller_step dims (GameState.Playing, b) (PlayerAction.revealAt pos)) acts =
      controller_step dims (GameState.Playing, b) (PlayerAction.revealAt pos) := by
  have hstep : controller_step dims (GameState.Playing, b) (PlayerAction.revealAt pos) =
      (GameState.GameOver, (reveal_board dims b pos).1) := by
    simp [controller_step, detect_presses, h1, h2]
  rw [hstep]
  exact ⟨rfl, foldl_gameover dims _ _⟩

theorem gameover_actions_noop_witness :
    (controller_step (1, 1) (GameState.Playing, bW7) (PlayerAction.revealAt (0, 0))).1 =
      GameState.GameOver ∧
    List.foldl (controller_step (1, 1))
        (controller_step (1, 1) (GameState.Playing, bW7) (PlayerAction.revealAt (0, 0)))
        [PlayerAction.revealAt (0, 0), PlayerAction.flagAt (0, 0)] =
      controller_step (1, 1) (GameState.Playing, bW7) (PlayerAction.revealAt (0, 0)) :=
  gameover_actions_noop (1, 1) bW7 (0, 0)
    [PlayerAction.revealAt (0, 0), PlayerAction.flagAt (0, 0)]
    (by decide) (by decide)

/-- C9: toggling the flag of an unrevealed cell twice restores the flag set. -/
theorem flag_toggle_involution (dims : Coord) (b : BoardState) (c : Coord)
    (h : c ∉ b.revealed) :
    ((controller_step dims
        (controller_step dims (GameState.Playing, b) (PlayerAction.flagAt c))
        (PlayerAction.flagAt c)).2).flags = b.flags := by
  by_cases hc : c ∈ b.flags
  · simp [controller_step, detect_presses, h, hc, Finset.not_mem_erase,
      Finset.insert_erase hc]
  · simp [controller_step, detect_presses, h, hc, Finset.erase_insert hc]

theorem flag_toggle_involution_witness :
    ((controller_step (2, 2)
        (controller_step (2, 2) (GameState.Playing, bW6) (PlayerAction.flagAt (0, 0)))
        (PlayerAction.flagAt (0, 0))).2).flags = bW6.flags :=
  flag_toggle_involution (2, 2) bW6 (0, 0) (by decide)

lemma sum_map_eq_zero {l : List Coord} {f : Coord → ℤ} (hpos : ∀ x ∈ l, 0 ≤ f x)
    (h : (l.map f).sum = 0) : ∀ x ∈ l, f x = 0 := by
  induction l with
  | nil => simp
  | cons a l ih =>
    simp only [List.map_cons, List.sum_cons] at h
    have ha := hpos a (by simp)
    have hl : ∀ x ∈ l, 0 ≤ f x := fun x hx => hpos x (by simp [hx])
    have hsum : 0 ≤ (l.map f).sum := by
      apply List.sum_nonneg
      intro x hx
      obtain ⟨y, hy, rfl⟩ := List.mem_map.1 hx
      exact hl y hy
    intro x hx
    rcases List.mem_cons.1 hx with rfl | hx2
    · omega
    · exact ih hl (by omega) x hx2

lemma neighbourCount_zero_no_mines {dims : Coord} {mines : Finset Coord} {p : Coord}
    (h : neighbourCount dims mines p = 0) :
    ∀ q ∈ neighbours dims p, q ∉ mines := by
  intro q hq hmem
  have hqL : q ∈ (offs.map fun o => ((o.1 + p.1, o.2 + p.2) : Coord)).filter
      fun q => in_bounds dims q := by
    simp only [neighbours, List.mem_filter, List.mem_map] at hq ⊢
    obtain ⟨⟨o, ho, rfl⟩, hin⟩ := hq
    exact ⟨⟨o, ho.1, rfl⟩, hin⟩
  have hz := sum_map_eq_zero (f := fun q => if q ∈ mines then (1 : ℤ) else 0)
    (fun x _ => by by_cases hx : x ∈ mines <;> simp [hx]) h q hqL
  simp only [hmem, if_true] at hz
  exact absurd hz (by omega)

lemma revealList_false {dims : Coord} {f : ℕ}
    (hrec : ∀ (b : BoardState) (pos : Coord) (out : BoardState × Bool),
      b.nums = compute_nums dims b.mines → pos ∉ b.mines →
      revealGo dims f b pos = some out → out.2 = false) :
    ∀ (l : List Coord) (b : BoardState) (out : BoardState × Bool),
      b.nums = compute_nums dims b.mines → (∀ n ∈ l, n ∉ b.mines) →
      revealList (revealGo dims f) b false l = some out → out.2 = false := by
  intro l
  induction l with
  | nil =>
    intro b out _ _ h
    simp only [revealList, Option.some.injEq] at h
    rw [← h]
  | cons n ns ih =>
    intro b out hnums hl h
    simp only [revealList] at h
    cases hg1 : revealGo dims f b n with
    | none => rw [hg1] at h; exact absurd h (by simp)
    | some p =>
      rw [hg1] at h
      have h2 : revealList (revealGo dims f) p.1 (false || p.2) ns = some out := h
      have hp2 : p.2 = false := hrec b n p hnums (hl n (by simp)) hg1
      rw [hp2, Bool.or_false] at h2
      have hfr := revealGo_frame dims f b n p hg1
      have hnums2 : p.1.nums = compute_nums dims p.1.mines := by
        rw [hfr.2.2.1, hfr.1, hnums]
      have hl2 : ∀ q ∈ ns, q ∉ p.1.mines := by
        intro q hq
        rw [hfr.1]
        exact hl q (by simp [hq])
      exact ih p.1 out hnums2 hl2 h2

lemma revealGo_false (dims : Coord) :
    ∀ (f : ℕ) (b : BoardState) (pos : Coord) (out : BoardState × Bool),
      b.nums = compute_nums dims b.mines → pos ∉ b.mines →
      revealGo dims f b pos = some out → out.2 = false := by
  intro f
  induction f with
  | zero => intro b pos out _ _ h; simp [revealGo] at h
  | succ f ih =>
    intro b pos out hnums hm h
    simp only [revealGo] at h
    by_cases h1 : pos ∈ b.flags
    · simp only [h1, if_true] at h
      cases h; rfl
    by_cases h2 : pos ∈ b.revealed
    · simp only [h1, h2, if_false, if_true] at h
      cases h; rfl
    simp only [h1, h2, if_false] at h
    by_cases h3 : pos ∈ b.mines
    · exact absurd h3 hm
    simp only [h3, if_false] at h
    by_cases h4 : b.nums pos = some 0
    · simp only [h4, if_true] at h
      have h5 : neighbourCount dims b.mines pos = 0 := by
        rw [hnums] at h4
        unfold compute_nums at h4
        split at h4
        · simpa using h4
        · exact absurd h4 (by simp)
      have hnomines := neighbourCount_zero_no_mines h5
      exact revealList_false ih (neighbours dims pos)
        { b with revealed := insert pos b.revealed } out hnums hnomines h
    · simp only [h4, if_false] at h
      cases h; rfl

/-- C1: the reveal operation reports a mine exactly when the target cell is a
mine that was neither flagged nor already revealed; on a board whose count
map is the one the generator computes from its mine set, no cascade call can
contribute true. -/
theorem reveal_signal_iff (dims : Coord) (b : BoardState) (pos : Coord)
    (hn : b.nums = compute_nums dims b.mines) :
    (reveal_board dims b pos).2 = true ↔
      pos ∈ b.mines ∧ pos ∉ b.flags ∧ pos ∉ b.revealed := by
  unfold reveal_board
  have hF : revealFuel dims b = ((boardCells dims \ b.revealed).card + 1) + 1 := rfl
  rw [hF, revealGo_succ]
  by_cases h1 : pos ∈ b.flags
  · simp [h1]
  by_cases h2 : pos ∈ b.revealed
  · simp [h1, h2]
  rw [if_neg h1, if_neg h2]
  by_cases h3 : pos ∈ b.mines
  · simp [h3, h1, h2]
  rw [if_neg h3]
  by_cases h4 : b.nums pos = some 0
  · rw [if_pos h4]
    constructor
    · intro htrue
      exfalso
      cases hrl : revealList (revealGo dims ((boardCells dims \ b.revealed).card + 1))
          { b with revealed := insert pos b.revealed } false (neighbours dims pos) with
      | none => rw [hrl] at htrue; simp at htrue
      | some out =>
        rw [hrl] at htrue
        simp only [Option.getD_some] at htrue
        have h5 : neighbourCount dims b.mines pos = 0 := by
          rw [hn] at h4
          unfold compute_nums at h4
          split at h4
          · simpa using h4
          · exact absurd h4 (by simp)
        have hfalse : out.2 = false :=
          revealList_false (revealGo_false dims _) (neighbours dims pos)
            { b with revealed := insert pos b.revealed } out hn
            (neighbourCount_zero_no_mines h5) hrl
        rw [hfalse] at htrue
        exact Bool.false_ne_true htrue
    · rintro ⟨hm, -, -⟩
      exact absurd hm h3
  · simp [h4, h3]

theorem reveal_signal_iff_witness :
    (reveal_board (2, 2) bW6 (0, 1)).2 = true :=
  (reveal_signal_iff (2, 2) bW6 (0, 1) rfl).mpr (by decide)

lemma placeMines_card : ∀ (l : List Coord) (n : ℕ) (s t : Finset Coord),
    placeMines l n s = some t → t.card = s.card + n := by
  intro l
  induction l with
  | nil =>
    intro n s t h
    cases n with
    | zero =>
      simp only [placeMines, Option.some.injEq] at h
      rw [← h, Nat.add_zero]
    | succ n => simp [placeMines] at h
  | cons c rest ih =>
    intro n s t h
    cases n with
    | zero =>
      simp only [placeMines, Option.some.injEq] at h
      rw [← h, Nat.add_zero]
    | succ n =>
      simp only [placeMines] at h
      by_cases hc : c ∈ s
      · rw [if_pos hc] at h
        exact ih _ _ _ h
      · rw [if_neg hc] at h
        have h2 := ih _ _ _ h
        rw [h2, Finset.card_insert_of_not_mem hc]
        omega

/-- C3: when the generation loop completes, the mine set has exactly
min(requested, width times height) elements; as a set it holds no duplicate
placements, and a request above the number of tiles is silently clamped. -/
theorem generate_board_mines_card (dims : Coord) (mineNum : ℤ) (samples : List Coord)
    (bd : BoardState) (h1 : 0 ≤ mineNum) (h2 : 0 ≤ dims.1 * dims.2)
    (h : generate_board dims mineNum samples = some bd) :
    (bd.mines.card : ℤ) = min mineNum (dims.1 * dims.2) := by
  unfold generate_board at h
  cases hp : placeMines samples (min mineNum (dims.1 * dims.2)).toNat ∅ with
  | none => rw [hp] at h; exact absurd h (by simp)
  | some mines =>
    rw [hp] at h
    simp only [Option.map_some', Option.some.injEq] at h
    have hcard := placeMines_card _ _ _ _ hp
    rw [Finset.card_empty] at hcard
    rw [← h]
    simp only [hcard, Nat.zero_add]
    exact Int.toNat_of_nonneg (le_min h1 h2)

theorem generate_board_mines_card_witness :
    (bdW3.mines.card : ℤ) = min (100 : ℤ) (((3 : ℤ), (3 : ℤ)).1 * ((3 : ℤ), (3 : ℤ)).2) :=
  generate_board_mines_card (3, 3) 100 samplesW3 bdW3 (by decide) (by decide) rfl

/-- C2: on the 4 by 4 board with a single mine at (3,3), revealing (0,0)
returns false and the cascade reveals exactly the fifteen non-mine cells. -/
theorem cascade_scenario_4x4 :
    (reveal_board (4, 4) boardC2 (0, 0)).2 = false ∧
      (reveal_board (4, 4) boardC2 (0, 0)).1.revealed =
        (boardCells (4, 4)).erase (3, 3) := by
  decide

lemma filter_map_sum (l : List Coord) (p : Coord → Bool) (f : Coord → ℤ) :
    ((l.filter p).map f).sum = (l.map fun q => if p q = true then f q else 0).sum := by
  induction l with
  | nil => simp
  | cons a l ih =>
    by_cases ha : p a = true
    · simp [List.filter_cons, ha, ih]
    · simp [List.filter_cons, ha, ih]

lemma sum_ite_card {l : List Coord} (hl : l.Nodup) (P : Coord → Prop) [DecidablePred P] :
    (l.map fun q => if P q then (1 : ℤ) else 0).sum = ((l.toFinset.filter P).card : ℤ) := by
  induction l with
  | nil => simp
  | cons a l ih =>
    have ha : a ∉ l := (List.nodup_cons.1 hl).1
    have hl2 := (List.nodup_cons.1 hl).2
    have hanotin : a ∉ l.toFinset.filter P := by
      intro hmem
      exact ha (List.mem_toFinset.1 (Finset.mem_of_mem_filter a hmem))
    simp only [List.map_cons, List.sum_cons, List.toFinset_cons]
    by_cases hP : P a
    · rw [if_pos hP, Finset.filter_insert, if_pos hP,
        Finset.card_insert_of_not_mem hanotin, ih hl2]
      push_cast
      ring
    · rw [if_neg hP, Finset.filter_insert, if_neg hP, ih hl2, zero_add]

lemma mem_offs {o : Coord} : o ∈ offs ↔ -1 ≤ o.1 ∧ o.1 ≤ 1 ∧ -1 ≤ o.2 ∧ o.2 ≤ 1 := by
  obtain ⟨x, y⟩ := o
  simp only [offs, List.mem_flatMap, List.mem_map, List.mem_cons, List.not_mem_nil,
    or_false, Prod.mk.injEq]
  constructor
  · rintro ⟨a, ha, b, hb, rfl, rfl⟩
    omega
  · rintro ⟨h1, h2, h3, h4⟩
    exact ⟨x, by omega, y, by omega, rfl, rfl⟩

lemma offs_nodup : offs.Nodup := by decide

lemma offs_shift_nodup (p : Coord) :
    (offs.map fun o => ((o.1 + p.1, o.2 + p.2) : Coord)).Nodup := by
  refine List.Nodup.map ?_ offs_nodup
  intro a b hab
  obtain ⟨a1, a2⟩ := a
  obtain ⟨b1, b2⟩ := b
  simp only [Prod.mk.injEq] at hab ⊢
  omega

lemma toFinset_shift (p : Coord) :
    (offs.map fun o => ((o.1 + p.1, o.2 + p.2) : Coord)).toFinset =
      Finset.Icc (p.1 - 1) (p.1 + 1) ×ˢ Finset.Icc (p.2 - 1) (p.2 + 1) := by
  ext q
  obtain ⟨q1, q2⟩ := q
  simp only [List.mem_toFinset, List.mem_map, Finset.mem_product, Finset.mem_Icc]
  constructor
  · rintro ⟨o, ho, heq⟩
    rw [mem_offs] at ho
    obtain ⟨o1, o2⟩ := o
    simp only [Prod.mk.injEq] at heq
    omega
  · rintro ⟨⟨h1, h2⟩, h3, h4⟩
    refine ⟨(q1 - p.1, q2 - p.2), mem_offs.2 (by constructor <;> omega), ?_⟩
    simp only [Prod.mk.injEq]
    omega

lemma neighbourCount_eq_moore (dims : Coord) (mines : Finset Coord) (c : Coord)
    (hc : c ∉ mines) :
    neighbourCount dims mines c = (mooreMineCount dims mines c : ℤ) := by
  unfold neighbourCount
  rw [filter_map_sum]
  have hcong : ∀ q ∈ (offs.map fun o => ((o.1 + c.1, o.2 + c.2) : Coord)),
      (if in_bounds dims q = true then (if q ∈ mines then (1 : ℤ) else 0) else 0) =
        (if in_bounds dims q = true ∧ q ∈ mines then (1 : ℤ) else 0) := by
    intro q _
    by_cases hb : in_bounds dims q = true <;> by_cases hm : q ∈ mines <;> simp [hb, hm]
  rw [List.map_congr_left hcong,
    sum_ite_card (offs_shift_nodup c) (fun q => in_bounds dims q = true ∧ q ∈ mines),
    toFinset_shift c]
  unfold mooreMineCount mooreNeighbors
  rw [Finset.filter_filter, Finset.filter_erase, Finset.erase_eq_of_not_mem (by simp [hc])]

/-- C4: on any board the generator completes, the count map is defined on
every in-bounds non-mine cell and equals the number of mines in that cell's
bounds-clipped Moore neighbourhood (which never includes the cell itself),
and the count map is undefined on mine cells. -/
theorem generate_board_nums_correct (dims : Coord) (mineNum : ℤ)
    (samples : List Coord) (bd : BoardState)
    (h : generate_board dims mineNum samples = some bd) :
    (∀ c : Coord, in_bounds dims c = true → c ∉ bd.mines →
        bd.nums c = some (mooreMineCount dims bd.mines c : ℤ)) ∧
      ∀ c ∈ bd.mines, bd.nums c = none := by
  unfold generate_board at h
  cases hp : placeMines samples (min mineNum (dims.1 * dims.2)).toNat ∅ with
  | none => rw [hp] at h; exact absurd h (by simp)
  | some mines =>
    rw [hp] at h
    simp only [Option.map_some', Option.some.injEq] at h
    rw [← h]
    constructor
    · intro c hin hm
      have hm2 : c ∉ mines := hm
      show compute_nums dims mines c = some (mooreMineCount dims mines c : ℤ)
      unfold compute_nums
      rw [if_pos ⟨hin, hm2⟩, neighbourCount_eq_moore dims mines c hm2]
    · intro c hcm
      have hcm2 : c ∈ mines := hcm
      show compute_nums dims mines c = none
      unfold compute_nums
      rw [if_neg]
      rintro ⟨-, hnot⟩
      exact hnot hcm2

theorem generate_board_nums_correct_witness :
    bdW4.nums (0, 0) = some (mooreMineCount (2, 2) bdW4.mines (0, 0) : ℤ) ∧
      bdW4.nums (0, 1) = none :=
  ⟨(generate_board_nums_correct (2, 2) 1 [(0, 1)] bdW4 rfl).1 (0, 0)
      (by decide) (by decide),
    (generate_board_nums_correct (2, 2) 1 [(0, 1)] bdW4 rfl).2 (0, 1) (by decide)⟩

lemma truncQ_eq (q : ℚ) (hk : 0 ≤ truncQ q) :
    (truncQ q = 0 ∧ -1 < q ∧ q < 1) ∨
      (1 ≤ truncQ q ∧ (truncQ q : ℚ) ≤ q ∧ q < (truncQ q : ℚ) + 1) := by
  unfold truncQ at hk ⊢
  split
  case isTrue hq =>
    rw [if_pos hq] at hk
    have hle : ⌈q⌉ ≤ 0 := Int.ceil_le.2 (le_of_lt (by exact_mod_cast hq))
    have hceil : ⌈q⌉ = 0 := le_antisymm hle hk
    left
    refine ⟨hceil, ?_, ?_⟩
    · have h2 := Int.ceil_eq_iff.1 hceil
      simpa using h2.1
    · calc q < 0 := hq
        _ < 1 := by norm_num
  case isFalse hq =>
    rw [if_neg hq] at hk
    have hfl := Int.floor_eq_iff.1 (rfl : ⌊q⌋ = ⌊q⌋)
    rcases eq_or_lt_of_le hk with heq | hlt
    · left
      refine ⟨heq.symm, ?_, ?_⟩
      · push_neg at hq
        linarith
      · have h2 := hfl.2
        rw [← heq] at h2
        simpa using h2
    · right
      exact ⟨hlt, hfl.1, hfl.2⟩

/-- C5 (amended): whatever cell the mapper returns is within board bounds,
and the input position lies in that cell's tile, except that truncation
toward zero widens column 0 and row 0 by one tile size toward negative
coordinates; hence some positions up to one tile left of or below the grid
still map to a cell. -/
theorem pos_to_tile_coords_sound (dims : Coord) (pos : ℚ × ℚ) (c : Coord)
    (h : pos_to_tile_coords dims pos = some c) :
    (0 ≤ c.1 ∧ c.1 < dims.1 ∧ 0 ≤ c.2 ∧ c.2 < dims.2) ∧
    ((c.1 = 0 ∧ gridLeft dims - TILE_SIZE < pos.1 ∧ pos.1 < gridLeft dims + TILE_SIZE) ∨
      (1 ≤ c.1 ∧ gridLeft dims + (c.1 : ℚ) * TILE_SIZE ≤ pos.1 ∧
        pos.1 < gridLeft dims + ((c.1 : ℚ) + 1) * TILE_SIZE)) ∧
    ((c.2 = 0 ∧ gridBottom dims - TILE_SIZE < pos.2 ∧ pos.2 < gridBottom dims + TILE_SIZE) ∨
      (1 ≤ c.2 ∧ gridBottom dims + (c.2 : ℚ) * TILE_SIZE ≤ pos.2 ∧
        pos.2 < gridBottom dims + ((c.2 : ℚ) + 1) * TILE_SIZE)) := by
  have hTS : (0 : ℚ) < TILE_SIZE := by norm_num [TILE_SIZE]
  simp only [pos_to_tile_coords] at h
  split at h
  case isFalse => exact absurd h (by simp)
  case isTrue hguard =>
    have hc := Option.some.inj h
    subst hc
    obtain ⟨hg1, hg2, hg3, hg4⟩ := hguard
    refine ⟨⟨hg1, hg3, hg2, hg4⟩, ?_, ?_⟩
    · have hglx : gridLeft dims = -(1 / 2 : ℚ) * (dims.1 : ℚ) * TILE_SIZE := rfl
      rcases truncQ_eq _ hg1 with ⟨hk0, ha, hb⟩ | ⟨hk1, ha, hb⟩
      · left
        rw [lt_div_iff₀ hTS] at ha
        rw [div_lt_iff₀ hTS] at hb
        exact ⟨hk0, by rw [hglx]; linarith, by rw [hglx]; linarith⟩
      · right
        rw [le_div_iff₀ hTS] at ha
        rw [div_lt_iff₀ hTS] at hb
        exact ⟨hk1, by rw [hglx]; linarith, by rw [hglx]; linarith⟩
    · have hgly : gridBottom dims = -(1 / 2 : ℚ) * (dims.2 : ℚ) * TILE_SIZE := rfl
      rcases truncQ_eq _ hg2 with ⟨hk0, ha, hb⟩ | ⟨hk1, ha, hb⟩
      · left
        rw [lt_div_iff₀ hTS] at ha
        rw [div_lt_iff₀ hTS] at hb
        exact ⟨hk0, by rw [hgly]; linarith, by rw [hgly]; linarith⟩
      · right
        rw [le_div_iff₀ hTS] at ha
        rw [div_lt_iff₀ hTS] at hb
        exact ⟨hk1, by rw [hgly]; linarith, by rw [hgly]; linarith⟩

lemma posW5 : pos_to_tile_coords BOARD_DIM ((0 : ℚ), (0 : ℚ)) = some (10, 7) := by
  norm_num [pos_to_tile_coords, truncQ, TILE_SIZE, BOARD_DIM]

theorem pos_to_tile_coords_sound_witness :
    (0 ≤ ((10 : ℤ), (7 : ℤ)).1 ∧ ((10 : ℤ), (7 : ℤ)).1 < BOARD_DIM.1 ∧
      0 ≤ ((10 : ℤ), (7 : ℤ)).2 ∧ ((10 : ℤ), (7 : ℤ)).2 < BOARD_DIM.2) ∧
    ((((10 : ℤ), (7 : ℤ)).1 = 0 ∧
        gridLeft BOARD_DIM - TILE_SIZE < (((0 : ℚ), (0 : ℚ))).1 ∧
        (((0 : ℚ), (0 : ℚ))).1 < gridLeft BOARD_DIM + TILE_SIZE) ∨
      (1 ≤ ((10 : ℤ), (7 : ℤ)).1 ∧
        gridLeft BOARD_DIM + ((((10 : ℤ), (7 : ℤ)).1 : ℚ)) * TILE_SIZE ≤ (((0 : ℚ), (0 : ℚ))).1 ∧
        (((0 : ℚ), (0 : ℚ))).1 <
          gridLeft BOARD_DIM + (((((10 : ℤ), (7 : ℤ)).1 : ℚ)) + 1) * TILE_SIZE)) ∧
    ((((10 : ℤ), (7 : ℤ)).2 = 0 ∧
        gridBottom BOARD_DIM - TILE_SIZE < (((0 : ℚ), (0 : ℚ))).2 ∧
        (((0 : ℚ), (0 : ℚ))).2 < gridBottom BOARD_DIM + TILE_SIZE) ∨
      (1 ≤ ((10 : ℤ), (7 : ℤ)).2 ∧
        gridBottom BOARD_DIM + ((((10 : ℤ), (7 : ℤ)).2 : ℚ)) * TILE_SIZE ≤ (((0 : ℚ), (0 : ℚ))).2 ∧
        (((0 : ℚ), (0 : ℚ))).2 <
          gridBottom BOARD_DIM + (((((10 : ℤ), (7 : ℤ)).2 : ℚ)) + 1) * TILE_SIZE)) :=
  pos_to_tile_coords_sound BOARD_DIM ((0 : ℚ), (0 : ℚ)) (10, 7) posW5

/-- C5 (counterexample): the position (-336, 0) lies strictly outside the
on-screen grid region, one half tile left of its left edge, yet the mapper
returns cell (0, 7) rather than none, because the float-to-integer cast
truncates -1/2 toward zero. -/
theorem pos_to_tile_coords_counterexample :
    pos_to_tile_coords BOARD_DIM ((-336 : ℚ), (0 : ℚ)) = some (0, 7) ∧
      ¬ insideGrid BOARD_DIM ((-336 : ℚ), (0 : ℚ)) := by
  constructor
  · norm_num [pos_to_tile_coords, truncQ, TILE_SIZE, BOARD_DIM, Int.ceil_neg]
  · intro hin
    have h1 := hin.1
    norm_num [gridLeft, TILE_SIZE, BOARD_DIM] at h1
